import Mathlib

/-!
# Verification of the `itertools` slice-utility library

A shallow embedding of the Go package `itertools` (files
`itertools/itertools.go`, the corrected implementation, and the early
draft file that also defines `ChunkResult`), together with theorems
settling the specification's claims about it.

Modelling conventions:
* a Go slice `[]T` is a `List α`;
* a Go predicate `func(T) bool` is `α → Bool`;
* a Go loop that appends to a result slice is a `foldl`; a loop with an
  early `break`/`return` is structural recursion;
* `Chunk`'s `(result, error)` pair is `Except String (ChunkResult α)`;
* the Go map returned by `GroupBy` is a total function `κ → List α`
  defaulting to `[]` (a key is present in the Go map exactly when its
  bucket is non-empty, since every stored bucket receives at least one
  element);
* Go's zero value of `T` (produced by the drafts' `make([]T, 1)`) is an
  explicit parameter `z`.
-/

namespace Itertools

universe u v
variable {α : Type u} {β : Type v}

/-- `ChunkResult` from the repository: the descriptor returned by `Chunk`.
`Chunks` holds the groups, `ChunkSize` the requested size, `Total` the
length of the original slice, `Remainder` its length modulo `ChunkSize`. -/
structure ChunkResult (α : Type u) where
  Chunks : List (List α)
  ChunkSize : Int
  Total : Nat
  Remainder : Nat

/-- `All` from `itertools.go`: scans the slice, returning `false` at the
first element failing the predicate and `true` if none fails. -/
def All : List α → (α → Bool) → Bool
  | [], _ => true
  | x :: xs, p => if p x then All xs p else false

/-- `Any` from `itertools.go`: scans the slice, returning `true` at the
first element satisfying the predicate and `false` if none does. -/
def Any : List α → (α → Bool) → Bool
  | [], _ => false
  | x :: xs, p => if p x then true else Any xs p

/-- The shared loop body of both `TakeWhile` versions: starting from the
accumulated result `acc`, append each element satisfying `p`, stopping at
the first element that fails it. -/
def takeWhileGo (acc : List α) : List α → (α → Bool) → List α
  | [], _ => acc
  | x :: xs, p => if p x then takeWhileGo (acc ++ [x]) xs p else acc

/-- `TakeWhile` from `itertools.go` (corrected version): the loop starts
from the empty slice `make([]T, 0)`. -/
def TakeWhile (iterable : List α) (p : α → Bool) : List α :=
  takeWhileGo [] iterable p

/-- `TakeWhile` from the early draft file: identical loop, but the result
buffer is `make([]T, 1)`, i.e. it already holds one zero value `z`. -/
def TakeWhileDraft (z : α) (iterable : List α) (p : α → Bool) : List α :=
  takeWhileGo [z] iterable p

/-- `SkipWhile` from `itertools.go`: walks the slice by index and returns
the sub-slice `iterable[i:]` at the first index `i` whose element fails
the predicate, or the empty slice if every element satisfies it. -/
def SkipWhile : List α → (α → Bool) → List α
  | [], _ => []
  | x :: xs, p => if p x then SkipWhile xs p else x :: xs

/-- The loop of the draft file's `DropWhile`: at the first index `i` whose
element satisfies the predicate it appends `iterable[i+1:]` and breaks;
if no element satisfies it, nothing is appended. -/
def dropWhileDraftGo : List α → (α → Bool) → List α
  | [], _ => []
  | x :: xs, p => if p x then xs else dropWhileDraftGo xs p

/-- `DropWhile` from the early draft file: the result buffer is
`make([]T, 1)` (one zero value `z`), then the loop appends the tail after
the first element satisfying the predicate. -/
def DropWhileDraft (z : α) (iterable : List α) (p : α → Bool) : List α :=
  z :: dropWhileDraftGo iterable p

/-- `Map` from `itertools.go`: appends `transformFn element` for each
element, in order, to an initially empty result. -/
def Map (iterable : List α) (transformFn : α → β) : List β :=
  iterable.foldl (fun acc element => acc ++ [transformFn element]) []

/-- `Flatten` from `itertools.go`: appends each nested slice, in order,
to an initially empty result. -/
def Flatten (iterable : List (List α)) : List α :=
  iterable.foldl (fun acc nested => acc ++ nested) []

/-- One iteration of `Chunk`'s loop: the slice `iterable[start:end]` with
`start = i * size` and `end = start + size`, except that the last batch
ends at `start + remainder` when `remainder > 0`. -/
def chunkAt (iterable : List α) (sz remainder nBatches i : Nat) : List α :=
  let start := i * sz
  let e := if i = nBatches - 1 ∧ 0 < remainder then start + remainder else start + sz
  (iterable.drop start).take (e - start)

/-- `Chunk` from `itertools.go`: rejects a non-positive size with an
error naming the offending value, otherwise splits the slice into
`(len + size - 1) / size` batches of `size` elements, the last batch
holding the `len % size` leftover elements when that remainder is
non-zero. -/
def Chunk (iterable : List α) (size : Int) : Except String (ChunkResult α) :=
  if size ≤ 0 then
    .error (toString size ++ " is not a valid chunk size, you must provide a positive integer")
  else
    let sz := size.toNat
    let itemCount := iterable.length
    let nBatches := (itemCount + sz - 1) / sz
    let remainder := itemCount % sz
    .ok { Chunks := (List.range nBatches).map (chunkAt iterable sz remainder nBatches)
          ChunkSize := size
          Total := itemCount
          Remainder := remainder }

/-- `GroupBy` from `itertools.go`, with the Go map modelled as a total
function defaulting to `[]`: each element is appended to the bucket of
its key, in encounter order (Go's creation of a fresh empty bucket for an
absent key is the identity in this model). -/
def GroupBy {κ : Type v} [DecidableEq κ] (iterable : List α) (keyFn : α → κ) : κ → List α :=
  iterable.foldl
    (fun result element =>
      fun k => if k = keyFn element then result k ++ [element] else result k)
    (fun _ => [])

/-- Spec-side rendering of `TakeWhile` ("the longest prefix of elements
that all satisfy `predicate`"), for the refinement comparison of C9. -/
def TakeWhileSpec (iterable : List α) (p : α → Bool) : List α :=
  iterable.takeWhile p

/-- Spec-side rendering of `SkipWhile` ("the suffix starting at the first
element that does NOT satisfy `predicate`"), for the refinement
comparison of C9. -/
def SkipWhileSpec (iterable : List α) (p : α → Bool) : List α :=
  iterable.dropWhile p

/-! ## Basic characterisations of the embedded loops -/

theorem takeWhileGo_eq (acc : List α) (l : List α) (p : α → Bool) :
    takeWhileGo acc l p = acc ++ l.takeWhile p := by
  induction l generalizing acc with
  | nil => simp [takeWhileGo]
  | cons x xs ih =>
    by_cases hx : p x
    · simp [takeWhileGo, hx, List.takeWhile_cons, ih]
    · simp [takeWhileGo, hx, List.takeWhile_cons]

theorem TakeWhile_eq_takeWhile (l : List α) (p : α → Bool) :
    TakeWhile l p = l.takeWhile p := by
  simp [TakeWhile, takeWhileGo_eq]

theorem SkipWhile_eq_dropWhile (l : List α) (p : α → Bool) :
    SkipWhile l p = l.dropWhile p := by
  induction l with
  | nil => rfl
  | cons x xs ih =>
    by_cases hx : p x
    · simp [SkipWhile, hx, List.dropWhile_cons, ih]
    · simp [SkipWhile, hx, List.dropWhile_cons]

theorem Map_eq_map (l : List α) (f : α → β) : Map l f = l.map f := by
  have h : ∀ acc : List β, l.foldl (fun acc element => acc ++ [f element]) acc
      = acc ++ l.map f := by
    induction l with
    | nil => simp
    | cons x xs ih => intro acc; simp [List.foldl_cons, ih]
  simpa using h []

theorem Flatten_eq_flatten (l : List (List α)) : Flatten l = l.flatten := by
  have h : ∀ acc : List α, l.foldl (fun acc nested => acc ++ nested) acc
      = acc ++ l.flatten := by
    induction l with
    | nil => simp
    | cons x xs ih => intro acc; simp [List.foldl_cons, ih]
  simpa using h []

theorem takeWhile_append_skipWhile (l : List α) (p : α → Bool) :
    TakeWhile l p ++ SkipWhile l p = l := by
  rw [TakeWhile_eq_takeWhile, SkipWhile_eq_dropWhile, List.takeWhile_append_dropWhile]

/-! ## Arithmetic of the batch count `(n + sz - 1) / sz` -/

/-- When `sz` does not divide `n`, the batch count is `n / sz + 1`. -/
theorem batch_count_of_mod_pos (n sz : Nat) (h : 0 < sz) (hr : n % sz ≠ 0) :
    (n + sz - 1) / sz = n / sz + 1 := by
  have hub : (n + sz - 1) / sz ≤ n / sz + 1 := by
    have h1 : (n + sz - 1) / sz ≤ (n + sz) / sz :=
      Nat.div_le_div_right (Nat.sub_le _ _)
    rwa [Nat.add_div_right _ h] at h1
  have hlb : n / sz + 1 ≤ (n + sz - 1) / sz := by
    rw [Nat.le_div_iff_mul_le h, Nat.add_mul, one_mul]
    have h1 : n / sz * sz + n % sz = n := Nat.div_add_mod' n sz
    have hm : 1 ≤ n % sz := Nat.one_le_iff_ne_zero.mpr hr
    generalize n / sz * sz = t at h1 ⊢
    omega
  exact Nat.le_antisymm hub hlb

/-- When `sz` divides `n`, the batch count is exactly `n / sz`. -/
theorem batch_count_of_mod_zero (n sz : Nat) (h : 0 < sz) (hr : n % sz = 0) :
    (n + sz - 1) / sz = n / sz := by
  obtain ⟨q, hq⟩ := Nat.dvd_of_mod_eq_zero hr
  subst hq
  rw [Nat.mul_div_cancel_left q h]
  have he : sz * q + sz - 1 = sz * q + (sz - 1) := Nat.add_sub_assoc h _
  rw [he, Nat.mul_add_div h, Nat.div_eq_of_lt (by omega), Nat.add_zero]

/-- The original length never exceeds batch count times batch size. -/
theorem length_le_batch_count_mul (n sz : Nat) (h : 0 < sz) :
    n ≤ (n + sz - 1) / sz * sz := by
  have h1 : (n + sz - 1) / sz * sz + (n + sz - 1) % sz = n + sz - 1 :=
    Nat.div_add_mod' (n + sz - 1) sz
  have hm : (n + sz - 1) % sz < sz := Nat.mod_lt _ h
  generalize (n + sz - 1) / sz * sz = t at h1 ⊢
  omega

/-! ## The chunks produced by `Chunk` -/

/-- Every batch of the `Chunk` loop, the truncated last one included, is
`(l.drop (i * sz)).take sz`. -/
theorem chunkAt_eq_take (l : List α) (sz : Nat) (h : 0 < sz) (i : Nat) :
    chunkAt l sz (l.length % sz) ((l.length + sz - 1) / sz) i
      = (l.drop (i * sz)).take sz := by
  unfold chunkAt
  by_cases hc : i = (l.length + sz - 1) / sz - 1 ∧ 0 < l.length % sz
  · obtain ⟨hie, hr⟩ := hc
    simp only [if_pos (And.intro hie hr), Nat.add_sub_cancel_left]
    have hq : i = l.length / sz := by
      rw [batch_count_of_mod_pos l.length sz h (Nat.pos_iff_ne_zero.mp hr),
        Nat.add_sub_cancel] at hie
      exact hie
    have hlen : (l.drop (i * sz)).length ≤ l.length % sz := by
      rw [List.length_drop, hq]
      have h1 : l.length / sz * sz + l.length % sz = l.length := Nat.div_add_mod' l.length sz
      generalize l.length / sz * sz = t at h1 ⊢
      omega
    rw [List.take_of_length_le hlen,
      List.take_of_length_le (le_trans hlen (Nat.le_of_lt (Nat.mod_lt _ h)))]
  · simp only [if_neg hc, Nat.add_sub_cancel_left]

/-- Gluing uniform `take sz` batches back together recovers the list. -/
theorem flatten_range_take (sz : Nat) :
    ∀ (nB : Nat) (l : List α), l.length ≤ nB * sz →
      (List.flatten ((List.range nB).map (fun i => (l.drop (i * sz)).take sz))) = l := by
  intro nB
  induction nB with
  | zero =>
    intro l hl
    simp only [Nat.zero_mul, Nat.le_zero] at hl
    simp [List.eq_nil_of_length_eq_zero hl]
  | succ n ih =>
    intro l hl
    rw [List.range_succ_eq_map]
    simp only [List.map_cons, List.map_map, List.flatten_cons, Nat.zero_mul, List.drop_zero]
    have hfun : ((fun i => (l.drop (i * sz)).take sz) ∘ Nat.succ)
        = (fun i => ((l.drop sz).drop (i * sz)).take sz) := by
      funext i
      simp only [Function.comp_apply, List.drop_drop]
      congr 2
      rw [Nat.succ_mul, Nat.add_comm]
    rw [hfun, ih (l.drop sz) ?hlen]
    · exact List.take_append_drop sz l
    · rw [List.length_drop]
      have h1 : (n + 1) * sz = n * sz + sz := Nat.succ_mul n sz
      generalize hu : (n + 1) * sz = u at h1 hl
      generalize n * sz = t at h1 ⊢
      omega

/-- Success case of `Chunk`: the result descriptor in closed form, with
every batch written as `(l.drop (i * sz)).take sz`. -/
theorem Chunk_ok (l : List α) (k : Int) (hk : 0 < k) :
    Chunk l k = .ok
      { Chunks := (List.range ((l.length + k.toNat - 1) / k.toNat)).map
          (fun i => (l.drop (i * k.toNat)).take k.toNat)
        ChunkSize := k
        Total := l.length
        Remainder := l.length % k.toNat } := by
  have hsz : 0 < k.toNat := by omega
  unfold Chunk
  rw [if_neg (not_le.mpr hk)]
  simp only
  rw [funext (chunkAt_eq_take l k.toNat hsz)]

/-- The length of batch `i` among `(n + sz - 1) / sz` batches of a list
of length `n`: `n % sz` for the final batch when `sz` does not divide
`n`, and `sz` otherwise. -/
theorem batch_size_formula (n sz i : Nat) (h : 0 < sz) (hi : i < (n + sz - 1) / sz) :
    min sz (n - i * sz) =
      if i + 1 = (n + sz - 1) / sz ∧ n % sz ≠ 0 then n % sz else sz := by
  by_cases hr : n % sz = 0
  · rw [if_neg (fun hc => hc.2 hr)]
    rw [batch_count_of_mod_zero n sz h hr] at hi
    have h2 : (i + 1) * sz ≤ n / sz * sz := Nat.mul_le_mul_right sz hi
    have h3 : n / sz * sz = n := by
      have hdm : n / sz * sz + n % sz = n := Nat.div_add_mod' n sz
      rw [hr, Nat.add_zero] at hdm
      exact hdm
    rw [h3] at h2
    have h4 : i * sz + sz ≤ n := by rw [← Nat.succ_mul]; exact h2
    have h5 : sz ≤ n - i * sz := by
      generalize i * sz = t at h4 ⊢
      omega
    exact Nat.min_eq_left h5
  · have hd := batch_count_of_mod_pos n sz h hr
    by_cases hlast : i + 1 = (n + sz - 1) / sz
    · rw [if_pos (And.intro hlast hr)]
      rw [hd] at hlast
      have hq : i = n / sz := Nat.add_right_cancel hlast
      have hsub : n - n / sz * sz = n % sz := by
        have hdm : n / sz * sz + n % sz = n := Nat.div_add_mod' n sz
        generalize n / sz * sz = t at hdm ⊢
        omega
      rw [hq, hsub]
      exact Nat.min_eq_right (Nat.le_of_lt (Nat.mod_lt n h))
    · rw [if_neg (fun hc => hlast hc.1)]
      rw [hd] at hi hlast
      have hi2 : i + 1 ≤ n / sz := by
        generalize n / sz = q at hi hlast
        omega
      have h2 : (i + 1) * sz ≤ n / sz * sz := Nat.mul_le_mul_right sz hi2
      have h3 : n / sz * sz ≤ n := Nat.div_mul_le_self n sz
      have h4 : i * sz + sz ≤ n := by
        rw [← Nat.succ_mul]
        exact le_trans h2 h3
      have h5 : sz ≤ n - i * sz := by
        generalize i * sz = t at h4 ⊢
        omega
      exact Nat.min_eq_left h5

/-! ## The specification's claims -/

/-- C1: for every non-empty sequence `s` and positive size `k`,
`Chunk s k` succeeds and `Flatten` applied to the `Chunks` of its result
reproduces `s` exactly — no reordering, duplication, or loss. -/
theorem chunk_flatten_roundtrip (s : List α) (k : Int) (_hs : s ≠ []) (hk : 0 < k) :
    ∃ res, Chunk s k = .ok res ∧ Flatten res.Chunks = s := by
  refine ⟨_, Chunk_ok s k hk, ?_⟩
  rw [Flatten_eq_flatten]
  exact flatten_range_take k.toNat _ s
    (length_le_batch_count_mul s.length k.toNat (by omega))

/-- Witness for C1 at `s = [1, 2, 3, 4, 5]`, `k = 2`. -/
theorem chunk_flatten_roundtrip_witness :
    ([1, 2, 3, 4, 5] : List Nat) ≠ [] ∧ (0 : Int) < 2 ∧
      ∃ res, Chunk ([1, 2, 3, 4, 5] : List Nat) 2 = .ok res ∧
        Flatten res.Chunks = [1, 2, 3, 4, 5] :=
  ⟨by decide, by decide, chunk_flatten_roundtrip [1, 2, 3, 4, 5] 2 (by decide) (by decide)⟩

/-- C2: for every sequence `s` and positive `size`, `Chunk s size`
returns exactly `⌈s.length / size⌉` chunks, every chunk except possibly
the last has exactly `size` elements, the last has `s.length % size`
elements when that remainder is non-zero and `size` elements otherwise,
`Total = s.length` and `Remainder = s.length % size`; an empty input is
the instance with zero chunks, `Total = 0` and `Remainder = 0`. -/
theorem chunk_shape (s : List α) (k : Int) (hk : 0 < k) :
    ∃ res, Chunk s k = .ok res ∧
      res.Chunks.length = s.length ⌈/⌉ k.toNat ∧
      res.Total = s.length ∧
      res.Remainder = s.length % k.toNat ∧
      ∀ i (h : i < res.Chunks.length),
        (res.Chunks.get ⟨i, h⟩).length =
          if i + 1 = res.Chunks.length ∧ s.length % k.toNat ≠ 0
          then s.length % k.toNat else k.toNat := by
  have hsz : 0 < k.toNat := by omega
  refine ⟨_, Chunk_ok s k hk, ?_, rfl, rfl, ?_⟩
  · simp [Nat.ceilDiv_eq_add_pred_div]
  · intro i h
    simp only [List.length_map, List.length_range] at h
    simp only [List.get_eq_getElem, List.getElem_map, List.getElem_range,
      List.length_map, List.length_range, List.length_take, List.length_drop]
    exact batch_size_formula s.length k.toNat i hsz h

/-- Witness for C2 at `s = [1, 2, 3, 4, 5]`, `k = 2`. -/
theorem chunk_shape_witness :
    (0 : Int) < 2 ∧
      ∃ res, Chunk ([1, 2, 3, 4, 5] : List Nat) 2 = .ok res ∧
        res.Chunks.length = ([1, 2, 3, 4, 5] : List Nat).length ⌈/⌉ (2 : Int).toNat ∧
        res.Total = ([1, 2, 3, 4, 5] : List Nat).length ∧
        res.Remainder = ([1, 2, 3, 4, 5] : List Nat).length % (2 : Int).toNat ∧
        ∀ i (h : i < res.Chunks.length),
          (res.Chunks.get ⟨i, h⟩).length =
            if i + 1 = res.Chunks.length ∧
                ([1, 2, 3, 4, 5] : List Nat).length % (2 : Int).toNat ≠ 0
            then ([1, 2, 3, 4, 5] : List Nat).length % (2 : Int).toNat
            else (2 : Int).toNat :=
  ⟨by decide, chunk_shape [1, 2, 3, 4, 5] 2 (by decide)⟩

/-- C3: `Chunk s k` with `k ≤ 0` fails with the invalid-argument error
naming the offending value `k` and produces no result, while `k > 0`
never fails. -/
theorem chunk_rejects_nonpositive_size (s : List α) (k : Int) :
    (k ≤ 0 → Chunk s k = .error
      (toString k ++ " is not a valid chunk size, you must provide a positive integer")) ∧
      (0 < k → ∃ res, Chunk s k = .ok res) := by
  constructor
  · intro hk
    unfold Chunk
    rw [if_pos hk]
  · intro hk
    exact ⟨_, Chunk_ok s k hk⟩

/-- Witness for C3 at `k = -2` (failure) and `k = 3` (success). -/
theorem chunk_rejects_nonpositive_size_witness :
    ((-2 : Int) ≤ 0 ∧ Chunk ([5, 6] : List Nat) (-2) = .error
      (toString (-2 : Int) ++ " is not a valid chunk size, you must provide a positive integer")) ∧
      ((0 : Int) < 3 ∧ ∃ res, Chunk ([5, 6] : List Nat) 3 = .ok res) :=
  ⟨⟨by decide, (chunk_rejects_nonpositive_size [5, 6] (-2)).1 (by decide)⟩,
    ⟨by decide, (chunk_rejects_nonpositive_size [5, 6] 3).2 (by decide)⟩⟩

/-- C4, counterexample: the claim that some sequence and predicate make
`TakeWhile` followed by `SkipWhile` differ from the original sequence is
false for the corrected implementation — no element type, sequence and
predicate witness it, because the two always recombine. -/
theorem take_skip_never_differ :
    ¬ ∃ (γ : Type) (s : List γ) (p : γ → Bool), TakeWhile s p ++ SkipWhile s p ≠ s :=
  fun ⟨_, s, p, hne⟩ => hne (takeWhile_append_skipWhile s p)

/-- C4, amended: for the corrected `TakeWhile`/`SkipWhile` the
concatenation always reproduces the original sequence; the
non-complementarity warning only applies to the draft pair
`TakeWhileDraft`/`DropWhileDraft`, which fails to recombine. -/
theorem take_skip_complement_amended :
    (∀ (γ : Type u) (s : List γ) (p : γ → Bool), TakeWhile s p ++ SkipWhile s p = s) ∧
      TakeWhileDraft 0 ([1] : List Nat) (fun _ => true) ++
        DropWhileDraft 0 ([1] : List Nat) (fun _ => true) ≠ [1] :=
  ⟨fun _ s p => takeWhile_append_skipWhile s p, by decide⟩

/-- C5: `All s p` equals the negation of `Any s (negate p)`; `All` is
vacuously true on the empty sequence and `Any` false on it. -/
theorem all_eq_not_any_negated (s : List α) (p : α → Bool) :
    All s p = !Any s (fun x => !p x) ∧
      All ([] : List α) p = true ∧ Any ([] : List α) p = false := by
  refine ⟨?_, rfl, rfl⟩
  induction s with
  | nil => rfl
  | cons x xs ih => by_cases hx : p x <;> simp [All, Any, hx, ih]

/-- C6: `SkipWhile s p` is the suffix of `s` starting at the first
element that does not satisfy `p` (inclusive) through the end, and the
empty sequence when every element satisfies `p`. -/
theorem skipWhile_suffix (s : List α) (p : α → Bool) :
    SkipWhile s p = s.drop (s.findIdx (fun x => !p x)) ∧
      ((∀ x ∈ s, p x = true) → SkipWhile s p = []) := by
  constructor
  · induction s with
    | nil => rfl
    | cons x xs ih =>
      by_cases hx : p x
      · simp [SkipWhile, hx, List.findIdx_cons, ih]
      · simp [SkipWhile, hx, List.findIdx_cons]
  · intro hall
    rw [SkipWhile_eq_dropWhile]
    rw [List.dropWhile_eq_nil_iff]
    exact fun x hx => hall x hx

/-- Witness for C6 at `s = [3, 3, 1, 45]`, `p = (· = 3)` for the suffix
equation and `s = [1, 2]`, `p = (0 < ·)` for the all-satisfying case. -/
theorem skipWhile_suffix_witness :
    SkipWhile ([3, 3, 1, 45] : List Nat) (fun x => decide (x = 3)) =
        List.drop (List.findIdx (fun x => !decide (x = 3)) ([3, 3, 1, 45] : List Nat))
          ([3, 3, 1, 45] : List Nat) ∧
      (∀ x ∈ ([1, 2] : List Nat), decide (0 < x) = true) ∧
      SkipWhile ([1, 2] : List Nat) (fun x => decide (0 < x)) = [] :=
  ⟨(skipWhile_suffix [3, 3, 1, 45] (fun x => decide (x = 3))).1, by decide,
    (skipWhile_suffix [1, 2] (fun x => decide (0 < x))).2 (by decide)⟩

/-- C7: `Map s f` has exactly the length of `s` and its `i`-th element
is `f` of the `i`-th element of `s`, in order. -/
theorem map_length_and_elements (s : List α) (f : α → β) :
    (Map s f).length = s.length ∧
      ∀ i : Nat, (Map s f)[i]? = Option.map f s[i]? := by
  rw [Map_eq_map]
  exact ⟨List.length_map s f, fun i => List.getElem?_map f s i⟩

/-- C8: the bucket of `GroupBy s keyFn` at any key `k` is exactly the
subsequence of elements of `s` whose key is `k`, in original order, and
a key has a non-empty bucket (is present in the Go map) exactly when it
is attained by `keyFn` on `s`. -/
theorem groupBy_buckets {κ : Type v} [DecidableEq κ] (s : List α) (keyFn : α → κ) (k : κ) :
    GroupBy s keyFn k = s.filter (fun x => decide (keyFn x = k)) ∧
      (GroupBy s keyFn k ≠ [] ↔ k ∈ s.map keyFn) := by
  have hfold : ∀ (m : κ → List α),
      (s.foldl
        (fun result element =>
          fun k' => if k' = keyFn element then result k' ++ [element] else result k')
        m) k = m k ++ s.filter (fun x => decide (keyFn x = k)) := by
    induction s with
    | nil => intro m; simp
    | cons x xs ih =>
      intro m
      simp only [List.foldl_cons, List.filter_cons]
      rw [ih]
      by_cases hx : keyFn x = k
      · simp [hx, List.append_assoc]
      · simp [hx, Ne.symm hx]
  have h1 : GroupBy s keyFn k = s.filter (fun x => decide (keyFn x = k)) := by
    have h2 := hfold (fun _ => [])
    rw [List.nil_append] at h2
    exact h2
  refine ⟨h1, ?_⟩
  rw [h1, Ne, List.filter_eq_nil_iff, List.mem_map]
  push_neg
  simp

/-- Witness for C8 at the spec's concrete example
`GroupBy(["a","aa","b","bbb"], len)`, key `1`. -/
theorem groupBy_buckets_witness :
    GroupBy (["a", "aa", "b", "bbb"] : List String) String.length 1 =
        List.filter (fun x => decide (String.length x = 1)) ["a", "aa", "b", "bbb"] ∧
      (GroupBy (["a", "aa", "b", "bbb"] : List String) String.length 1 ≠ [] ↔
        1 ∈ List.map String.length ["a", "aa", "b", "bbb"]) :=
  groupBy_buckets ["a", "aa", "b", "bbb"] String.length 1

/-- C9: the draft `TakeWhile`/`DropWhile` (result buffer `make([]T, 1)`,
holding one zero value) differ extensionally from the corrected
`TakeWhile`/`SkipWhile` (empty initial buffer), and only the corrected
versions realize the specified longest-satisfying-prefix and
first-failing-suffix behavior. -/
theorem draft_versions_differ :
    TakeWhileDraft 0 ([1, 2] : List Nat) (fun _ => true) ≠
        TakeWhile ([1, 2] : List Nat) (fun _ => true) ∧
      DropWhileDraft 0 ([1] : List Nat) (fun _ => true) ≠
        SkipWhile ([1] : List Nat) (fun _ => true) ∧
      (∀ (γ : Type u) (s : List γ) (p : γ → Bool),
        TakeWhile s p = TakeWhileSpec s p ∧ SkipWhile s p = SkipWhileSpec s p) ∧
      TakeWhileDraft 0 ([1, 2] : List Nat) (fun _ => true) ≠
        TakeWhileSpec ([1, 2] : List Nat) (fun _ => true) ∧
      DropWhileDraft 0 ([1] : List Nat) (fun _ => true) ≠
        SkipWhileSpec ([1] : List Nat) (fun _ => true) := by
  refine ⟨by decide, by decide, fun γ s p =>
    ⟨TakeWhile_eq_takeWhile s p, SkipWhile_eq_dropWhile s p⟩, by decide, by decide⟩

/-- C10: in the corrected implementation, `TakeWhile s p` followed by
`SkipWhile s p` concatenates back to exactly `s`: `TakeWhile` stops just
before the first failing element and `SkipWhile` starts at that same
element. -/
theorem takeWhile_skipWhile_recombine (s : List α) (p : α → Bool) :
    TakeWhile s p ++ SkipWhile s p = s :=
  takeWhile_append_skipWhile s p

end Itertools
